import Mathlib

/-
Verification of the add-skill tool: a shallow embedding of its skill
discovery engine, installer exclusion rules, CLI orchestration logic
(src/index entry point), and favourites persistence (src/favourites.ts).

The repository ships only the CLI entry points, the favourites store, the
remote-search client and the shared type declarations; the discovery engine
(skills module), installer and agent registry are imported but their source
is not part of the repository snapshot.  Definitions for those components
are modelled from the specification and are marked as such in their doc
comments.  Everything else is translated directly from the TypeScript
source.
-/

namespace AddSkill

/-! ## Filesystem model

A filesystem snapshot is a flat listing of directory paths and of file
paths with their textual content.  Paths are lists of components; the
order of the listings is the enumeration order of the underlying
directory walk. -/

abbrev Path := List String

structure Fs where
  dirs : List Path
  files : List (Path × String)

def readFileAt (fs : Fs) (p : Path) : Option String :=
  (fs.files.find? (fun pc => pc.1 == p)).map (·.2)

def childDirs (fs : Fs) (p : Path) : List Path :=
  fs.dirs.filter (fun d => d.length == p.length + 1 && p.isPrefixOf d)

/-! ## Manifest parsing and validation

Modelled from the spec: the manifest parser lives in the skills module,
which is absent from the repository snapshot.  The spec describes the
manifest as a file named exactly SKILL.md containing a delimited
front-matter block of key:value pairs followed by a markdown body that
discovery ignores. -/

def manifestFileName : String := "SKILL.md"

/-- Splits a character sequence into its lines at newline characters. -/
def splitLinesAux (acc : List Char) : List Char → List (List Char)
  | [] => [acc.reverse]
  | c :: cs =>
    if c = '\n' then acc.reverse :: splitLinesAux [] cs
    else splitLinesAux (c :: acc) cs

def splitLines (cs : List Char) : List (List Char) :=
  splitLinesAux [] cs

/-- Removes leading and trailing whitespace from a character sequence. -/
def trimChars (cs : List Char) : List Char :=
  ((cs.dropWhile Char.isWhitespace).reverse.dropWhile Char.isWhitespace).reverse

/-- Splits a line at its first colon into key and value parts; none when
the line holds no colon. -/
def splitAtColon : List Char → Option (List Char × List Char)
  | [] => none
  | c :: cs =>
    if c = ':' then some ([], cs)
    else (splitAtColon cs).map (fun pr => (c :: pr.1, pr.2))

def delimiterLine : List Char := ['-', '-', '-']

/-- Modelled from the spec: parsing of the delimited front-matter block
(key/value pairs between two delimiter lines); the concrete parser is in
the missing skills module.  Returns none when the block is unparseable:
no closing delimiter, or a block line without a key/value separator. -/
def parseBlockLines : List (List Char) → Option (List (String × String))
  | [] => none
  | line :: rest =>
    if trimChars line = delimiterLine then some []
    else
      match splitAtColon line with
      | none => none
      | some (k, v) =>
        (parseBlockLines rest).map
          (fun fields =>
            (String.mk (trimChars k), String.mk (trimChars v)) :: fields)

/-- Modelled from the spec: front-matter extraction for a manifest file
(missing skills module).  The content must start with a delimiter line;
the block runs to the next delimiter line. -/
def parseFrontmatter (content : String) : Option (List (String × String)) :=
  match splitLines content.data with
  | [] => none
  | first :: rest =>
    if trimChars first = delimiterLine then parseBlockLines rest else none

def lookupField (fields : List (String × String)) (key : String) : Option String :=
  (fields.find? (fun kv => kv.1 == key)).map (·.2)

/-- Modelled from the spec: manifest validation (missing skills module).
A manifest is accepted only when its front-matter parses and holds a
non-empty name field and a non-empty description field; on acceptance the
name, the description and the full field list are returned. -/
def validateManifest (content : String) :
    Option (String × String × List (String × String)) :=
  match parseFrontmatter content with
  | none => none
  | some fields =>
    match lookupField fields "name", lookupField fields "description" with
    | some n, some d =>
      if n != "" && d != "" then some (n, d, fields) else none
    | some _, none => none
    | none, _ => none

/-! ## Skills and discovery -/

structure Skill where
  name : String
  description : String
  path : Path
  metadata : List (String × String)
  deriving DecidableEq

def hasManifest (fs : Fs) (p : Path) : Bool :=
  (readFileAt fs (p ++ [manifestFileName])).isSome

/-- Modelled from the spec: turning a candidate directory into a Skill
(missing skills module).  The candidate directory's path becomes the
skill's path and all front-matter keys other than name and description
are retained verbatim as the metadata mapping. -/
def candidateToSkill (fs : Fs) (p : Path) : Option Skill :=
  match readFileAt fs (p ++ [manifestFileName]) with
  | none => none
  | some content =>
    match validateManifest content with
    | none => none
    | some (n, d, fields) =>
      some { name := n, description := d, path := p,
             metadata := fields.filter
               (fun kv => kv.1 != "name" && kv.1 != "description") }

/-- Modelled from the spec: the fixed ordered list of conventional
container directories probed by the standard-location tier (a generic
skills directory, curated/experimental/system sub-variants and
agent-specific directories); the exact list is in the missing skills
module. -/
def standardContainers : List Path :=
  [["skills"], ["skills", "curated"], ["skills", "experimental"],
   ["skills", "system"], [".claude", "skills"], [".opencode", "skills"],
   [".codex", "skills"], [".cursor", "skills"]]

/-- Modelled from the spec: the standard-location tier (missing skills
module).  Containers are probed in fixed priority order; within each
existing container the immediate child directories holding a manifest
file are candidates; results aggregate across containers. -/
def tier2Candidates (fs : Fs) (eff : Path) : List Path :=
  standardContainers.flatMap (fun c =>
    (childDirs fs (eff ++ c)).filter (hasManifest fs))

/-- Modelled from the spec: version-control metadata directories skipped
by the recursive fallback walk (missing skills module). -/
def skipNames : List String := [".git"]

/-- Modelled from the spec: the recursive fallback walk (missing skills
module).  Depth-first, bounded to a maximum depth given by the fuel;
every visited directory containing a manifest file is a candidate;
version-control metadata directories are skipped. -/
def walk (fs : Fs) : Nat → Path → List Path
  | 0, _ => []
  | fuel + 1, p =>
    (childDirs fs p).flatMap (fun d =>
      if skipNames.contains (d.getLastD "") then []
      else (if hasManifest fs d then [d] else []) ++ walk fs fuel d)

def maxWalkDepth : Nat := 5

/-- Modelled from the spec: path-based deduplication (missing skills
module).  Keeps the first catalog entry for each resolved path. -/
def dedupByPath (seen : List Path) : List Skill → List Skill
  | [] => []
  | s :: rest =>
    if seen.contains s.path then dedupByPath seen rest
    else s :: dedupByPath (s.path :: seen) rest

/-- Modelled from the spec: the shared post-tier pipeline (missing skills
module): each candidate directory is validated independently — an invalid
manifest silently contributes nothing — and the surviving skills are
deduplicated by resolved path. -/
def catalogOf (fs : Fs) (cands : List Path) : List Skill :=
  dedupByPath [] (cands.filterMap (candidateToSkill fs))

/-- Modelled from the spec: the discovery engine (missing skills module).
Tier 1: a manifest at the effective root short-circuits everything.
Tier 2: standard containers, aggregated.  Tier 3: the bounded recursive
walk, only when tier 2 yields zero candidates. -/
def discover (fs : Fs) (rootPath : Path) (subpath : Option Path) : List Skill :=
  if hasManifest fs (rootPath ++ subpath.getD []) then
    catalogOf fs [rootPath ++ subpath.getD []]
  else if (tier2Candidates fs (rootPath ++ subpath.getD [])).isEmpty then
    catalogOf fs (walk fs maxWalkDepth (rootPath ++ subpath.getD []))
  else catalogOf fs (tier2Candidates fs (rootPath ++ subpath.getD []))

/-! ## Installer

Modelled from the spec: the installer module is absent from the
repository snapshot.  Installation is a plain recursive copy of the
skill's file tree to the destination, omitting files named exactly
README.md or metadata.json and any file or directory whose name begins
with an underscore. -/

/-- Modelled from the spec: the installer's exclusion rule (missing
installer module). -/
def isExcluded (entryName : String) : Bool :=
  entryName == "README.md" || entryName == "metadata.json"
    || (match entryName.data with
        | [] => false
        | c :: _ => c == '_')

/-- Modelled from the spec: the recursive copy performed by the installer
(missing installer module), described by the file listing it produces at
the destination.  A file is copied when every component of its path
relative to the skill root survives the exclusion rule; an excluded
directory therefore omits its whole subtree. -/
def installCopy (fs : Fs) (skillPath dest : Path) : List (Path × String) :=
  fs.files.filterMap (fun pc =>
    if skillPath.isPrefixOf pc.1 then
      if (pc.1.drop skillPath.length).any isExcluded then none
      else some (dest ++ pc.1.drop skillPath.length, pc.2)
    else none)

/-! ## CLI orchestrator

Translated from the main entry point (src/index): skill selection, agent
validation and selection, scope resolution and the nested installation
loop.  Interactive prompt branches are represented by an opaque
interactive outcome; printing and telemetry are omitted. -/

structure InstallOutcome where
  success : Bool
  path : String
  error : Option String
  deriving DecidableEq

structure InstallRecord where
  skill : Skill
  agent : String
  outcome : InstallOutcome
  deriving DecidableEq

structure CliOptions where
  globalOpt : Option Bool
  agentOpt : List String
  yes : Bool
  skillOpt : List String
  listMode : Bool
  deriving DecidableEq

inductive SelectStep (α : Type) where
  | exitFail
  | interactivePrompt
  | ok (xs : α)
  deriving DecidableEq

inductive CliResult where
  | exited (code : Nat) (results : List InstallRecord)
  | interactive
  | completed (results : List InstallRecord)
  deriving DecidableEq

/-- The hard-coded list of accepted names for the explicit agent option
(validAgents in main). -/
def validAgents : List String :=
  ["opencode", "claude-code", "codex", "cursor", "antigravity"]

/-- The declared members of the AgentType union (src/types.ts). -/
def agentTypeNames : List String :=
  ["opencode", "claude-code", "codex", "cursor", "amp", "kilo", "roo",
   "goose", "antigravity"]

/-- Skill selection in main: an explicit skill-name option filters by
name or display name and an empty match is a hard failure; otherwise a
single discovered skill or the yes option selects everything, and any
remaining case prompts interactively. -/
def selectSkills (displayName : Skill → String) (skills : List Skill)
    (opts : CliOptions) : SelectStep (List Skill) :=
  if !opts.skillOpt.isEmpty then
    let sel := skills.filter (fun s =>
      opts.skillOpt.any (fun n =>
        s.name.toLower == n.toLower || (displayName s).toLower == n.toLower))
    if sel.isEmpty then .exitFail else .ok sel
  else if skills.length == 1 then .ok skills
  else if opts.yes then .ok skills
  else .interactivePrompt

/-- Agent selection in main: an explicit agent option is validated
against validAgents and any invalid name is a hard failure; with no
explicit option and no detected agents, the yes option installs to the
hard-coded list of all five agents; a single detected agent or the yes
option uses the detected list; any remaining case prompts
interactively. -/
def selectAgents (opts : CliOptions) (installed : List String) :
    SelectStep (List String) :=
  if !opts.agentOpt.isEmpty then
    let invalid := opts.agentOpt.filter (fun a => !(validAgents.contains a))
    if !invalid.isEmpty then .exitFail else .ok opts.agentOpt
  else if installed.isEmpty then
    if opts.yes then
      .ok ["opencode", "claude-code", "codex", "cursor", "antigravity"]
    else .interactivePrompt
  else if installed.length == 1 || opts.yes then .ok installed
  else .interactivePrompt

/-- The installation phase of main: for each selected skill, for each
target agent, one installer call and one pushed outcome record. -/
def installPhase (selected : List Skill) (targets : List String)
    (install : Skill → String → InstallOutcome) : List InstallRecord :=
  selected.flatMap (fun s =>
    targets.map (fun a => { skill := s, agent := a, outcome := install s a }))

/-- The main orchestration flow after discovery, translated from the main
entry point: empty catalog exits with code 1; list mode exits 0 without
installing; skill then agent selection, each able to exit 1 or prompt;
the scope prompt and the confirmation prompt run unless the yes option is
set; finally the nested installation loop over the full cross-product. -/
def runMain (displayName : Skill → String) (skills : List Skill)
    (opts : CliOptions) (installed : List String)
    (install : Skill → String → Bool → InstallOutcome) : CliResult :=
  if skills.isEmpty then .exited 1 []
  else if opts.listMode then .exited 0 []
  else
    match selectSkills displayName skills opts with
    | .exitFail => .exited 1 []
    | .interactivePrompt => .interactive
    | .ok selected =>
      match selectAgents opts installed with
      | .exitFail => .exited 1 []
      | .interactivePrompt => .interactive
      | .ok targets =>
        let installGlobally := opts.globalOpt.getD false
        if opts.globalOpt.isNone && !opts.yes then .interactive
        else if !opts.yes then .interactive
        else
          .completed (installPhase selected targets
            (fun s a => install s a installGlobally))

/-! ## Favourites persistence (src/favourites.ts)

loadFavourites reads the data file, parses it as JSON and falls back to
the default document on any failure: a read error, a parse error, a
missing or falsy version field, or a favourites field that is not an
array.  The JSON library is represented by a value type with JavaScript
truthiness and by an abstract parse function (the behaviour of the
built-in JSON parser is not part of this repository). -/

inductive JsValue where
  | null
  | bool (b : Bool)
  | num (n : Int)
  | str (s : String)
  | arr (elems : List JsValue)
  | obj (fields : List (String × JsValue))

/-- Property access on a parsed value: defined fields of an object, and
the undefined result (none) everywhere else. -/
def jsGet : JsValue → String → Option JsValue
  | .obj fields, key => (fields.find? (fun kv => kv.1 == key)).map (·.2)
  | _, _ => none

/-- JavaScript truthiness of a possibly undefined value. -/
def jsTruthy : Option JsValue → Bool
  | none => false
  | some .null => false
  | some (.bool b) => b
  | some (.num n) => n != 0
  | some (.str s) => s != ""
  | some (.arr _) => true
  | some (.obj _) => true

/-- The Array.isArray check of loadFavourites. -/
def jsIsArray : Option JsValue → Bool
  | some (.arr _) => true
  | _ => false

/-- The state of the favourites data file as seen by readFile: a thrown
error (missing or unreadable file) or the file's text. -/
inductive ReadResult where
  | failure
  | content (text : String)

/-- getDefaultData from src/favourites.ts, as the JSON document it
produces. -/
def getDefaultData : JsValue :=
  .obj [("version", .num 1), ("favourites", .arr [])]

/-- loadFavourites from src/favourites.ts, parametrized by the JSON
parser (none models a parse exception; any exception inside the try
block, including property access on a null document, lands in the same
catch).  Returns the parsed document only when the version field is
truthy and the favourites field is an array, and the default document in
every other situation. -/
def loadFavourites (jsonParse : String → Option JsValue) :
    ReadResult → JsValue
  | .failure => getDefaultData
  | .content text =>
    match jsonParse text with
    | none => getDefaultData
    | some data =>
      if !(jsTruthy (jsGet data "version")) || !(jsIsArray (jsGet data "favourites"))
      then getDefaultData
      else data

/-- getFavourites from src/favourites.ts: the favourites field of the
loaded document. -/
def getFavourites (jsonParse : String → Option JsValue)
    (st : ReadResult) : Option JsValue :=
  jsGet (loadFavourites jsonParse st) "favourites"

/-! ### Typed favourites operations

addFavourite and removeFavourite load the store, operate on the typed
favourites list and persist the result through saveFavourites. -/

structure Favourite where
  id : String
  repo : String
  description : String
  addedAt : String
  deriving DecidableEq

structure FavouritesData where
  version : Int
  favourites : List Favourite
  deriving DecidableEq

/-- The observable effect of removeFavourite from src/favourites.ts on
the loaded store: the returned boolean, the store content afterwards and
whether saveFavourites was called. -/
structure RemoveOutcome where
  returned : Bool
  stored : FavouritesData
  wrote : Bool
  deriving DecidableEq

/-- removeFavourite from src/favourites.ts, acting on the loaded data:
findIndex on the id, returning false without saving when no entry
matches, and otherwise splicing out the entry at the found index, saving
and returning true. -/
def removeFavourite (id : String) (data : FavouritesData) : RemoveOutcome :=
  match data.favourites.findIdx? (fun f => f.id == id) with
  | none => { returned := false, stored := data, wrote := false }
  | some index =>
    { returned := true,
      stored := { data with favourites := data.favourites.eraseIdx index },
      wrote := true }

/-! ## Helper lemmas -/

theorem candidateToSkill_path (fs : Fs) (p : Path) (sk : Skill)
    (h : candidateToSkill fs p = some sk) : sk.path = p := by
  unfold candidateToSkill at h
  split at h
  · exact absurd h (by simp)
  · split at h
    · exact absurd h (by simp)
    · cases h
      rfl

theorem candidateToSkill_hasManifest (fs : Fs) (p : Path) (sk : Skill)
    (h : candidateToSkill fs p = some sk) : hasManifest fs p = true := by
  unfold candidateToSkill at h
  unfold hasManifest
  split at h
  · exact absurd h (by simp)
  · next content hr => rw [hr]; rfl

/-! ## C1: tier-1 short-circuit -/

/-- C1: for every repository whose probed root (rootPath, optionally
joined with subpath) itself holds a valid manifest, discover returns a
catalog of exactly that one skill, its path being the probed root; the
result is this singleton for every filesystem satisfying the hypothesis,
so no standard-location or recursive search below the root contributes
anything. -/
theorem discover_direct_hit (fs : Fs) (rootPath : Path)
    (subpath : Option Path) (sk : Skill)
    (h : candidateToSkill fs (rootPath ++ subpath.getD []) = some sk) :
    discover fs rootPath subpath = [sk] ∧
      sk.path = rootPath ++ subpath.getD [] := by
  refine ⟨?_, candidateToSkill_path fs _ sk h⟩
  unfold discover
  simp only [candidateToSkill_hasManifest fs _ sk h, if_true, catalogOf,
    List.filterMap_cons, h, List.filterMap_nil]
  simp [dedupByPath]

/-- A filesystem whose root holds a valid manifest and whose
subdirectory also holds one. -/
def fsDirect : Fs :=
  { dirs := [[], ["sub"]],
    files := [([manifestFileName], "---\nname: a\ndescription: b\n---\n"),
              (["sub", manifestFileName],
                "---\nname: c\ndescription: d\n---\n")] }

def skDirect : Skill :=
  { name := "a", description := "b", path := [], metadata := [] }

theorem discover_direct_hit_witness :
    discover fsDirect [] none = [skDirect] ∧ skDirect.path = [] :=
  discover_direct_hit fsDirect [] none skDirect (by decide)

theorem mem_dedupByPath_sub (sk : Skill) :
    ∀ (l : List Skill) (seen : List Path), sk ∈ dedupByPath seen l → sk ∈ l := by
  intro l
  induction l with
  | nil => intro seen h; simp [dedupByPath] at h
  | cons s rest ih =>
    intro seen h
    unfold dedupByPath at h
    by_cases hc : seen.contains s.path = true
    · rw [if_pos hc] at h
      exact List.mem_cons_of_mem _ (ih _ h)
    · rw [if_neg hc] at h
      rcases List.mem_cons.mp h with h1 | h2
      · exact h1 ▸ List.mem_cons_self _ _
      · exact List.mem_cons_of_mem _ (ih _ h2)

theorem mem_catalogOf_elim (fs : Fs) (cands : List Path) (sk : Skill)
    (h : sk ∈ catalogOf fs cands) :
    ∃ p ∈ cands, candidateToSkill fs p = some sk := by
  have := mem_dedupByPath_sub sk _ [] h
  exact List.mem_filterMap.mp this

theorem mem_discover_elim (fs : Fs) (rootPath : Path) (subpath : Option Path)
    (sk : Skill) (h : sk ∈ discover fs rootPath subpath) :
    candidateToSkill fs sk.path = some sk := by
  unfold discover at h
  have elim : ∀ cands, sk ∈ catalogOf fs cands →
      candidateToSkill fs sk.path = some sk := by
    intro cands hmem
    obtain ⟨p, _, hp⟩ := mem_catalogOf_elim fs cands sk hmem
    rw [candidateToSkill_path fs p sk hp]
    exact hp
  split at h
  · exact elim _ h
  · split at h
    · exact elim _ h
    · exact elim _ h

/-! ## C2: silent rejection of invalid manifests -/

/-- C2: a manifest whose front-matter parses but lacks a description
field fails validation; a candidate directory whose manifest does not
validate contributes nothing to the post-tier catalog pipeline while
every other candidate is still processed (discovery is not aborted and no
error is raised — the pipeline is a total function); and no skill in any
discover catalog sits at a path whose manifest fails validation. -/
theorem invalid_manifest_excluded (fs : Fs) :
    (∀ (content : String) (fields : List (String × String)),
        parseFrontmatter content = some fields →
        lookupField fields "description" = none →
        validateManifest content = none) ∧
    (∀ (p : Path) (l₁ l₂ : List Path), candidateToSkill fs p = none →
        catalogOf fs (l₁ ++ p :: l₂) = catalogOf fs (l₁ ++ l₂)) ∧
    (∀ (rootPath : Path) (subpath : Option Path) (p : Path),
        candidateToSkill fs p = none →
        ∀ sk ∈ discover fs rootPath subpath, sk.path ≠ p) := by
  refine ⟨?_, ?_, ?_⟩
  · intro content fields hp hd
    unfold validateManifest
    rw [hp]
    dsimp only
    rw [hd]
    cases hn : lookupField fields "name" <;> simp
  · intro p l₁ l₂ hnone
    simp [catalogOf, List.filterMap_append, List.filterMap_cons, hnone]
  · intro rootPath subpath p hnone sk hmem heq
    have := mem_discover_elim fs rootPath subpath sk hmem
    rw [heq, hnone] at this
    exact absurd this (by simp)

/-- A repository holding a single candidate directory whose manifest has
a name but no description. -/
def fsFixer : Fs :=
  { dirs := [[], ["fixer"]],
    files := [(["fixer", manifestFileName], "---\nname: Fixer\n---\nbody")] }

theorem invalid_manifest_excluded_witness :
    validateManifest "---\nname: Fixer\n---\nbody" = none ∧
    catalogOf fsFixer ([] ++ ["fixer"] :: []) = catalogOf fsFixer ([] ++ []) :=
  ⟨(invalid_manifest_excluded fsFixer).1 "---\nname: Fixer\n---\nbody"
      [("name", "Fixer")] (by decide) (by decide),
   (invalid_manifest_excluded fsFixer).2.1 ["fixer"] [] [] (by decide)⟩

/-! ## C3: recursive fallback, bounded depth -/

/-- A chain of directories below a base: every prefix of the relative
path exists as a directory and no component is a skipped name. -/
def dirChainB (fs : Fs) : Path → Path → Bool
  | _, [] => true
  | base, n :: q =>
    fs.dirs.contains (base ++ [n]) && !(skipNames.contains n)
      && dirChainB fs (base ++ [n]) q

theorem childDirs_shape (fs : Fs) (base d : Path) (h : d ∈ childDirs fs base) :
    d ∈ fs.dirs ∧ ∃ n, d = base ++ [n] := by
  unfold childDirs at h
  obtain ⟨hd, hcond⟩ := List.mem_filter.mp h
  refine ⟨hd, ?_⟩
  rw [Bool.and_eq_true] at hcond
  obtain ⟨hl, hpre⟩ := hcond
  have hlen : d.length = base.length + 1 := by simpa using hl
  obtain ⟨t, ht⟩ := List.isPrefixOf_iff_prefix.mp hpre
  have htl : t.length = 1 := by
    have := congrArg List.length ht
    simp only [List.length_append] at this
    omega
  obtain ⟨n, rfl⟩ := List.length_eq_one.mp htl
  exact ⟨n, ht.symm⟩

theorem childDirs_intro (fs : Fs) (base : Path) (n : String)
    (h : (base ++ [n]) ∈ fs.dirs) : (base ++ [n]) ∈ childDirs fs base := by
  unfold childDirs
  refine List.mem_filter.mpr ⟨h, ?_⟩
  rw [Bool.and_eq_true]
  exact ⟨by simp, List.isPrefixOf_iff_prefix.mpr (List.prefix_append base [n])⟩

theorem walk_finds (fs : Fs) :
    ∀ (q : Path) (fuel : Nat) (base : Path), q ≠ [] → q.length ≤ fuel →
      dirChainB fs base q = true → hasManifest fs (base ++ q) = true →
      (base ++ q) ∈ walk fs fuel base := by
  intro q
  induction q with
  | nil => intro fuel base h _ _ _; exact absurd rfl h
  | cons n q' ih =>
    intro fuel base _ hlen hchain hman
    match fuel, hlen with
    | fuel + 1, hlen =>
      unfold walk
      unfold dirChainB at hchain
      rw [Bool.and_eq_true, Bool.and_eq_true, Bool.not_eq_true'] at hchain
      obtain ⟨⟨hdir, hskip⟩, hrest⟩ := hchain
      have hmem : (base ++ [n]) ∈ fs.dirs := by simpa using hdir
      refine List.mem_flatMap.mpr ⟨base ++ [n], childDirs_intro fs base n hmem, ?_⟩
      rw [List.getLastD_concat, hskip]
      simp only [Bool.false_eq_true, if_false]
      cases q' with
      | nil =>
        have hm : hasManifest fs (base ++ [n]) = true := by simpa using hman
        rw [hm]
        simp
      | cons m q'' =>
        refine List.mem_append_right _ ?_
        have hassoc : base ++ n :: (m :: q'') = (base ++ [n]) ++ (m :: q'') := by
          simp
        rw [hassoc]
        refine ih fuel (base ++ [n]) (by simp) ?_ hrest ?_
        · have : (n :: m :: q'').length ≤ fuel + 1 := hlen
          simp only [List.length_cons] at this ⊢
          omega
        · rw [← hassoc]; exact hman

theorem walk_mem_depth (fs : Fs) :
    ∀ (fuel : Nat) (base p : Path), p ∈ walk fs fuel base →
      ∃ q, p = base ++ q ∧ 1 ≤ q.length ∧ q.length ≤ fuel := by
  intro fuel
  induction fuel with
  | zero => intro base p h; simp [walk] at h
  | succ f ih =>
    intro base p h
    unfold walk at h
    obtain ⟨d, hd, hmem⟩ := List.mem_flatMap.mp h
    obtain ⟨_, n, rfl⟩ := childDirs_shape fs base d hd
    by_cases hskip : skipNames.contains ((base ++ [n]).getLastD "") = true
    · rw [if_pos hskip] at hmem; simp at hmem
    · rw [if_neg hskip] at hmem
      rcases List.mem_append.mp hmem with h1 | h2
      · have hp : p = base ++ [n] := by
          by_cases hm : hasManifest fs (base ++ [n]) = true
          · rw [if_pos hm] at h1; simpa using h1
          · rw [if_neg hm] at h1; simp at h1
        exact ⟨[n], hp, by simp, by simp⟩
      · obtain ⟨q', rfl, hq1, hq2⟩ := ih (base ++ [n]) p h2
        refine ⟨n :: q', by simp, by simp, ?_⟩
        simp only [List.length_cons]
        omega

theorem mem_dedupByPath_intro (sk : Skill) :
    ∀ (l : List Skill) (seen : List Path),
      sk ∈ l → seen.contains sk.path = false →
      (∀ t ∈ l, t.path = sk.path → t = sk) →
      sk ∈ dedupByPath seen l := by
  intro l
  induction l with
  | nil => intro seen h; simp at h
  | cons s rest ih =>
    intro seen hmem hseen huniq
    unfold dedupByPath
    by_cases hc : seen.contains s.path = true
    · rw [if_pos hc]
      have hne : sk ≠ s := by
        intro he
        rw [he] at hseen
        rw [hseen] at hc
        exact Bool.false_ne_true hc
      have : sk ∈ rest := by
        rcases List.mem_cons.mp hmem with h1 | h1
        · exact absurd h1 hne
        · exact h1
      exact ih seen this hseen (fun t ht => huniq t (List.mem_cons_of_mem _ ht))
    · rw [if_neg hc]
      rcases List.mem_cons.mp hmem with h1 | h1
      · rw [h1]; exact List.mem_cons_self _ _
      · by_cases hse : s = sk
        · rw [hse]; exact List.mem_cons_self _ _
        · refine List.mem_cons_of_mem _ (ih (s.path :: seen) h1 ?_ ?_)
          · rw [List.contains_cons]
            have hps : (sk.path == s.path) = false := by
              cases hb : sk.path == s.path
              · rfl
              · have heq : sk.path = s.path := by simpa using hb
                exact absurd (huniq s (List.mem_cons_self _ _) heq.symm) hse
            rw [hps, hseen]
            rfl
          · exact fun t ht => huniq t (List.mem_cons_of_mem _ ht)

theorem mem_catalogOf_intro (fs : Fs) (cands : List Path) (p : Path) (sk : Skill)
    (hp : p ∈ cands) (hc : candidateToSkill fs p = some sk) :
    sk ∈ catalogOf fs cands := by
  have hmem : sk ∈ cands.filterMap (candidateToSkill fs) :=
    List.mem_filterMap.mpr ⟨p, hp, hc⟩
  refine mem_dedupByPath_intro sk _ [] hmem rfl ?_
  intro t ht hpath
  obtain ⟨q, _, hcq⟩ := List.mem_filterMap.mp ht
  have htq : t.path = q := candidateToSkill_path fs q t hcq
  have hskp : sk.path = p := candidateToSkill_path fs p sk hc
  rw [htq] at hpath
  rw [hpath, hskp] at hcq
  rw [hc] at hcq
  exact (Option.some.inj hcq).symm

/-- C3: the recursive fallback runs only when the standard-location tier
yields zero candidates: with tier-2 candidates present the catalog is
exactly the tier-2 pipeline result and the walk is unused; with zero
tier-2 candidates the catalog is the bounded depth-first walk's pipeline
result, every valid manifest reachable through a directory chain of
relative depth at most 5 is found, every catalog entry sits at relative
depth between 1 and 5, and a skill whose directory sits at depth 6 is
absent. -/
theorem discover_recursive_fallback (fs : Fs) (rootPath : Path)
    (subpath : Option Path) :
    (hasManifest fs (rootPath ++ subpath.getD []) = false →
      (tier2Candidates fs (rootPath ++ subpath.getD [])).isEmpty = false →
      discover fs rootPath subpath =
        catalogOf fs (tier2Candidates fs (rootPath ++ subpath.getD []))) ∧
    (hasManifest fs (rootPath ++ subpath.getD []) = false →
      tier2Candidates fs (rootPath ++ subpath.getD []) = [] →
      (discover fs rootPath subpath =
          catalogOf fs (walk fs maxWalkDepth (rootPath ++ subpath.getD [])) ∧
        (∀ (q : Path) (sk : Skill), q ≠ [] → q.length ≤ 5 →
          dirChainB fs (rootPath ++ subpath.getD []) q = true →
          candidateToSkill fs (rootPath ++ subpath.getD [] ++ q) = some sk →
          sk ∈ discover fs rootPath subpath) ∧
        (∀ sk ∈ discover fs rootPath subpath,
          ∃ q, sk.path = rootPath ++ subpath.getD [] ++ q ∧
            1 ≤ q.length ∧ q.length ≤ 5) ∧
        (∀ (q : Path) (sk : Skill), q.length = 6 →
          sk.path = rootPath ++ subpath.getD [] ++ q →
          sk ∉ discover fs rootPath subpath))) := by
  constructor
  · intro hman ht2
    simp [discover, hman, ht2]
  · intro hman ht2
    have heq : discover fs rootPath subpath =
        catalogOf fs (walk fs maxWalkDepth (rootPath ++ subpath.getD [])) := by
      simp [discover, hman, ht2]
    have hdepth : ∀ sk ∈ discover fs rootPath subpath,
        ∃ q, sk.path = rootPath ++ subpath.getD [] ++ q ∧
          1 ≤ q.length ∧ q.length ≤ 5 := by
      intro sk hmem
      rw [heq] at hmem
      obtain ⟨p, hp, hc⟩ := mem_catalogOf_elim fs _ sk hmem
      obtain ⟨q, hpq, hq1, hq2⟩ := walk_mem_depth fs maxWalkDepth _ p hp
      exact ⟨q, by rw [candidateToSkill_path fs p sk hc, hpq], hq1, hq2⟩
    refine ⟨heq, ?_, hdepth, ?_⟩
    · intro q sk hq hlen hchain hc
      rw [heq]
      refine mem_catalogOf_intro fs _ (rootPath ++ subpath.getD [] ++ q) sk ?_ hc
      exact walk_finds fs q maxWalkDepth _ hq hlen hchain
        (candidateToSkill_hasManifest fs _ sk hc)
    · intro q sk hq6 hpath hmem
      obtain ⟨q', hpath', _, hq5⟩ := hdepth sk hmem
      rw [hpath] at hpath'
      have : q = q' := List.append_cancel_left hpath'
      rw [← this] at hq5
      omega

/-- A repository with no tier-1 manifest and no standard container, one
valid manifest at depth 5 and one at depth 6. -/
def fsDeep : Fs :=
  { dirs := [["a"], ["a", "b"], ["a", "b", "c"], ["a", "b", "c", "d"],
             ["a", "b", "c", "d", "e"], ["a", "b", "c", "d", "e", "f"]],
    files := [(["a", "b", "c", "d", "e", manifestFileName],
                "---\nname: deep5\ndescription: d\n---\n"),
              (["a", "b", "c", "d", "e", "f", manifestFileName],
                "---\nname: deep6\ndescription: e\n---\n")] }

def skDeep5 : Skill :=
  { name := "deep5", description := "d",
    path := ["a", "b", "c", "d", "e"], metadata := [] }

def skDeep6 : Skill :=
  { name := "deep6", description := "e",
    path := ["a", "b", "c", "d", "e", "f"], metadata := [] }

theorem discover_recursive_fallback_witness :
    skDeep5 ∈ discover fsDeep [] none ∧ skDeep6 ∉ discover fsDeep [] none :=
  ⟨((discover_recursive_fallback fsDeep [] none).2 (by decide)
      (by decide)).2.1 ["a", "b", "c", "d", "e"] skDeep5
      (by decide) (by decide) (by decide) (by decide),
   ((discover_recursive_fallback fsDeep [] none).2 (by decide)
      (by decide)).2.2.2 ["a", "b", "c", "d", "e", "f"] skDeep6
      (by decide) (by decide)⟩

/-! ## C4: deduplication by path, not by name -/

theorem dedupByPath_nodup_aux :
    ∀ (l : List Skill) (seen : List Path),
      (∀ sk ∈ dedupByPath seen l, seen.contains sk.path = false) ∧
      ((dedupByPath seen l).map Skill.path).Nodup := by
  intro l
  induction l with
  | nil => intro seen; simp [dedupByPath]
  | cons s rest ih =>
    intro seen
    unfold dedupByPath
    by_cases hc : seen.contains s.path = true
    · rw [if_pos hc]; exact ih seen
    · rw [if_neg hc]
      have hcf : seen.contains s.path = false := by
        cases h : seen.contains s.path
        · rfl
        · exact absurd h hc
      obtain ⟨ih1, ih2⟩ := ih (s.path :: seen)
      constructor
      · intro sk hmem
        rcases List.mem_cons.mp hmem with h1 | h1
        · rw [h1]; exact hcf
        · have := ih1 sk h1
          rw [List.contains_cons] at this
          simp only [Bool.or_eq_false_iff] at this
          exact this.2
      · rw [List.map_cons]
        refine List.nodup_cons.mpr ⟨?_, ih2⟩
        intro hmem
        obtain ⟨sk, hsk, hpath⟩ := List.mem_map.mp hmem
        have := ih1 sk hsk
        rw [List.contains_cons, hpath] at this
        simp at this

theorem dedupByPath_append_dup (sk : Skill) :
    ∀ (l : List Skill) (seen : List Path),
      (seen.contains sk.path = true ∨ ∃ t ∈ l, t.path = sk.path) →
      dedupByPath seen (l ++ [sk]) = dedupByPath seen l := by
  intro l
  induction l with
  | nil =>
    intro seen h
    rcases h with h | h
    · simp only [List.nil_append]
      unfold dedupByPath
      rw [if_pos h]
      rfl
    · simp at h
  | cons s rest ih =>
    intro seen h
    simp only [List.cons_append]
    unfold dedupByPath
    by_cases hc : seen.contains s.path = true
    · rw [if_pos hc, if_pos hc]
      apply ih
      rcases h with h | ⟨t, ht, hpath⟩
      · exact Or.inl h
      · rcases List.mem_cons.mp ht with h1 | h1
        · left; rw [← hpath, h1]; exact hc
        · exact Or.inr ⟨t, h1, hpath⟩
    · rw [if_neg hc, if_neg hc]
      congr 1
      apply ih
      rcases h with h | ⟨t, ht, hpath⟩
      · left; rw [List.contains_cons, h]; simp
      · rcases List.mem_cons.mp ht with h1 | h1
        · left; rw [List.contains_cons, ← hpath, h1]; simp
        · exact Or.inr ⟨t, h1, hpath⟩

theorem catalogOf_nodup (fs : Fs) (cands : List Path) :
    ((catalogOf fs cands).map Skill.path).Nodup :=
  (dedupByPath_nodup_aux (cands.filterMap (candidateToSkill fs)) []).2

/-- C4: the catalog is deduplicated by resolved path and not by name:
every discover catalog lists pairwise distinct paths; appending an
already present candidate path to the pipeline's candidate list leaves
the catalog unchanged (a duplicated path yields a single entry); and two
tier-2 candidates with identical manifest name but distinct paths both
appear in the catalog as distinct entries. -/
theorem discover_dedup_by_path (fs : Fs) (rootPath : Path)
    (subpath : Option Path) :
    ((discover fs rootPath subpath).map Skill.path).Nodup ∧
    (∀ (cands : List Path) (p : Path), p ∈ cands →
      catalogOf fs (cands ++ [p]) = catalogOf fs cands) ∧
    (∀ (p₁ p₂ : Path) (sk₁ sk₂ : Skill),
      hasManifest fs (rootPath ++ subpath.getD []) = false →
      p₁ ∈ tier2Candidates fs (rootPath ++ subpath.getD []) →
      p₂ ∈ tier2Candidates fs (rootPath ++ subpath.getD []) →
      candidateToSkill fs p₁ = some sk₁ →
      candidateToSkill fs p₂ = some sk₂ →
      sk₁.name = sk₂.name → p₁ ≠ p₂ →
      sk₁ ∈ discover fs rootPath subpath ∧
        sk₂ ∈ discover fs rootPath subpath ∧ sk₁ ≠ sk₂) := by
  refine ⟨?_, ?_, ?_⟩
  · unfold discover
    split
    · exact catalogOf_nodup fs _
    · split
      · exact catalogOf_nodup fs _
      · exact catalogOf_nodup fs _
  · intro cands p hp
    unfold catalogOf
    rw [List.filterMap_append]
    cases hc : candidateToSkill fs p with
    | none => simp [hc]
    | some sk =>
      simp only [List.filterMap_cons, hc, List.filterMap_nil]
      apply dedupByPath_append_dup
      exact Or.inr ⟨sk, List.mem_filterMap.mpr ⟨p, hp, hc⟩, rfl⟩
  · intro p₁ p₂ sk₁ sk₂ hman hp₁ hp₂ hc₁ hc₂ _ hne
    have ht2 : (tier2Candidates fs (rootPath ++ subpath.getD [])).isEmpty = false := by
      cases h : tier2Candidates fs (rootPath ++ subpath.getD []) with
      | nil => rw [h] at hp₁; simp at hp₁
      | cons a as => rfl
    have heq : discover fs rootPath subpath =
        catalogOf fs (tier2Candidates fs (rootPath ++ subpath.getD [])) := by
      simp [discover, hman, ht2]
    refine ⟨heq ▸ mem_catalogOf_intro fs _ p₁ sk₁ hp₁ hc₁,
            heq ▸ mem_catalogOf_intro fs _ p₂ sk₂ hp₂ hc₂, ?_⟩
    intro habs
    apply hne
    rw [← candidateToSkill_path fs p₁ sk₁ hc₁,
        ← candidateToSkill_path fs p₂ sk₂ hc₂, habs]

/-- A repository whose standard skills container holds two skill
directories with the same manifest name. -/
def fsDup : Fs :=
  { dirs := [[], ["skills"], ["skills", "x"], ["skills", "y"]],
    files := [(["skills", "x", manifestFileName],
                "---\nname: dup\ndescription: dx\n---\n"),
              (["skills", "y", manifestFileName],
                "---\nname: dup\ndescription: dy\n---\n")] }

def skDupX : Skill :=
  { name := "dup", description := "dx", path := ["skills", "x"], metadata := [] }

def skDupY : Skill :=
  { name := "dup", description := "dy", path := ["skills", "y"], metadata := [] }

theorem discover_dedup_by_path_witness :
    skDupX ∈ discover fsDup [] none ∧
      skDupY ∈ discover fsDup [] none ∧ skDupX ≠ skDupY :=
  (discover_dedup_by_path fsDup [] none).2.2 ["skills", "x"] ["skills", "y"]
    skDupX skDupY (by decide) (by decide) (by decide) (by decide) (by decide)
    (by decide) (by decide)

/-! ## C5: installer exclusion rule -/

/-- A skill directory holding README.md, metadata.json, a directory
whose name begins with an underscore, and main.sh. -/
def fsScenario : Fs :=
  { dirs := [["skill"], ["skill", "_private"]],
    files := [(["skill", "README.md"], "r"), (["skill", "metadata.json"], "m"),
              (["skill", "_private", "notes.txt"], "n"),
              (["skill", "main.sh"], "s")] }

/-- C5: the installer copies the skill's file tree to the destination
omitting exactly the entries excluded by the rule — a file lands at the
destination if and only if its relative path holds no component named
README.md or metadata.json and none beginning with an underscore — and
on the scenario skill (README.md, metadata.json, a file below an
underscore directory, and main.sh) only main.sh exists at the
destination after install. -/
theorem installer_exclusion :
    (∀ (fs : Fs) (skillPath dest : Path),
      (∀ (rel : Path) (c : String), (skillPath ++ rel, c) ∈ fs.files →
        rel.any isExcluded = false →
        (dest ++ rel, c) ∈ installCopy fs skillPath dest) ∧
      (∀ (q : Path) (c : String), (q, c) ∈ installCopy fs skillPath dest →
        ∃ rel, q = dest ++ rel ∧ (skillPath ++ rel, c) ∈ fs.files ∧
          rel.any isExcluded = false)) ∧
    installCopy fsScenario ["skill"] ["dest"] = [(["dest", "main.sh"], "s")] := by
  constructor
  · intro fs skillPath dest
    constructor
    · intro rel c hmem hexc
      refine List.mem_filterMap.mpr ⟨(skillPath ++ rel, c), hmem, ?_⟩
      have hpre : skillPath.isPrefixOf (skillPath ++ rel) = true :=
        List.isPrefixOf_iff_prefix.mpr (List.prefix_append _ _)
      simp only [hpre, if_true, List.drop_left, hexc]
      simp
    · intro q c hmem
      obtain ⟨pc, hpc, heq⟩ := List.mem_filterMap.mp hmem
      by_cases hpre : skillPath.isPrefixOf pc.1 = true
      · rw [if_pos hpre] at heq
        by_cases hexc : (pc.1.drop skillPath.length).any isExcluded = true
        · rw [if_pos hexc] at heq
          exact absurd heq (by simp)
        · rw [if_neg hexc] at heq
          have hexc' : (pc.1.drop skillPath.length).any isExcluded = false := by
            cases h : (pc.1.drop skillPath.length).any isExcluded
            · rfl
            · exact absurd h hexc
          obtain ⟨t, ht⟩ := List.isPrefixOf_iff_prefix.mp hpre
          have hdrop : pc.1.drop skillPath.length = t := by
            rw [← ht, List.drop_left]
          have hcomp : (dest ++ pc.1.drop skillPath.length, pc.2) = (q, c) :=
            Option.some.inj heq
          refine ⟨pc.1.drop skillPath.length,
            (congrArg Prod.fst hcomp).symm, ?_, hexc'⟩
          have hfst : skillPath ++ pc.1.drop skillPath.length = pc.1 := by
            rw [hdrop, ht]
          have hsnd : pc.2 = c := congrArg Prod.snd hcomp
          rw [hfst, ← hsnd]
          simpa using hpc
      · rw [if_neg hpre] at heq
        exact absurd heq (by simp)
  · decide

theorem installer_exclusion_witness :
    (["dest", "main.sh"], "s") ∈ installCopy fsScenario ["skill"] ["dest"] :=
  (installer_exclusion.1 fsScenario ["skill"] ["dest"]).1 ["main.sh"] "s"
    (by decide) (by decide)

/-! ## C6: the installation loop covers the full cross-product -/

theorem installPhase_cons (s : Skill) (rest : List Skill)
    (targets : List String) (install : Skill → String → InstallOutcome) :
    installPhase (s :: rest) targets install =
      targets.map (fun a => { skill := s, agent := a, outcome := install s a }) ++
        installPhase rest targets install := by
  simp [installPhase]

theorem installPhase_length (selected : List Skill) (targets : List String)
    (install : Skill → String → InstallOutcome) :
    (installPhase selected targets install).length =
      selected.length * targets.length := by
  induction selected with
  | nil => simp [installPhase]
  | cons s rest ih =>
    rw [installPhase_cons]
    simp only [List.length_append, List.length_map, ih, List.length_cons]
    rw [Nat.succ_mul, Nat.add_comm]

theorem installPhase_pairs (selected : List Skill) (targets : List String)
    (install : Skill → String → InstallOutcome) :
    (installPhase selected targets install).map (fun r => (r.skill, r.agent)) =
      selected.flatMap (fun s => targets.map (fun a => (s, a))) := by
  induction selected with
  | nil => simp [installPhase]
  | cons s rest ih =>
    rw [installPhase_cons]
    simp only [List.map_append, List.map_map, List.flatMap_cons, ih]
    rfl

theorem installPhase_getElem (targets : List String)
    (install : Skill → String → InstallOutcome) :
    ∀ (selected : List Skill) (i j : Nat) (s : Skill) (a : String),
      selected[i]? = some s → targets[j]? = some a →
      (installPhase selected targets install)[i * targets.length + j]? =
        some { skill := s, agent := a, outcome := install s a } := by
  intro selected
  induction selected with
  | nil => intro i j s a hs _; simp at hs
  | cons s0 rest ih =>
    intro i j s a hs ha
    rw [installPhase_cons]
    cases i with
    | zero =>
      simp only [List.getElem?_cons_zero] at hs
      have hs0 : s0 = s := Option.some.inj hs
      have hj : j < targets.length := (List.getElem?_eq_some.mp ha).1
      rw [List.getElem?_append]
      simp only [List.length_map, Nat.zero_mul, Nat.zero_add]
      rw [if_pos hj, List.getElem?_map, ha]
      simp [hs0]
    | succ i' =>
      simp only [List.getElem?_cons_succ] at hs
      rw [List.getElem?_append]
      simp only [List.length_map]
      have h1 : (i' + 1) * targets.length = i' * targets.length + targets.length :=
        Nat.succ_mul _ _
      rw [h1]
      rw [if_neg (by omega)]
      have h2 : i' * targets.length + targets.length + j - targets.length =
          i' * targets.length + j := by omega
      rw [h2]
      exact ih i' j s a hs ha

/-- C6: the installation phase iterates the full cross-product of
selected skills and target agents, one installer call and one outcome
record per pair in skill-major order, for every outcome function —
including ones that fail on some pairs, so one failure never suppresses
the records of the remaining pairs; and in the non-interactive flow the
orchestrator finishes by surfacing exactly this full record list. -/
theorem install_loop_cross_product :
    (∀ (selected : List Skill) (targets : List String)
        (install : Skill → String → InstallOutcome),
      (installPhase selected targets install).length =
          selected.length * targets.length ∧
      (installPhase selected targets install).map (fun r => (r.skill, r.agent)) =
          selected.flatMap (fun s => targets.map (fun a => (s, a))) ∧
      (∀ (i j : Nat) (s : Skill) (a : String),
        selected[i]? = some s → targets[j]? = some a →
        (installPhase selected targets install)[i * targets.length + j]? =
          some { skill := s, agent := a, outcome := install s a })) ∧
    (∀ (displayName : Skill → String) (skills : List Skill)
        (opts : CliOptions) (installed : List String)
        (install : Skill → String → Bool → InstallOutcome)
        (selected : List Skill) (targets : List String),
      skills.isEmpty = false → opts.listMode = false → opts.yes = true →
      selectSkills displayName skills opts = .ok selected →
      selectAgents opts installed = .ok targets →
      runMain displayName skills opts installed install =
        .completed (installPhase selected targets
          (fun s a => install s a (opts.globalOpt.getD false)))) := by
  constructor
  · intro selected targets install
    exact ⟨installPhase_length selected targets install,
           installPhase_pairs selected targets install,
           installPhase_getElem targets install selected⟩
  · intro displayName skills opts installed install selected targets
      hne hlist hyes hsel hag
    simp [runMain, hne, hlist, hyes, hsel, hag]

def skW1 : Skill :=
  { name := "one", description := "d1", path := ["p1"], metadata := [] }

def skW2 : Skill :=
  { name := "two", description := "d2", path := ["p2"], metadata := [] }

/-- An outcome function that fails on the second agent. -/
def outcomeW (s : Skill) (a : String) : InstallOutcome :=
  { success := a == "opencode", path := s.name ++ "/" ++ a, error := none }

def installW (s : Skill) (a : String) (g : Bool) : InstallOutcome :=
  { success := !g && (a == "opencode"), path := s.name, error := none }

def optsW : CliOptions :=
  { globalOpt := some false, agentOpt := ["opencode", "codex"], yes := true,
    skillOpt := [], listMode := false }

theorem install_loop_cross_product_witness :
    (installPhase [skW1, skW2] ["opencode", "codex"] outcomeW)[
        1 * (["opencode", "codex"] : List String).length + 1]? =
      some { skill := skW2, agent := "codex",
             outcome := outcomeW skW2 "codex" } ∧
    runMain (fun s => s.name) [skW1, skW2] optsW [] installW =
      .completed (installPhase [skW1, skW2] ["opencode", "codex"]
        (fun s a => installW s a (optsW.globalOpt.getD false))) :=
  ⟨(install_loop_cross_product.1 [skW1, skW2] ["opencode", "codex"]
      outcomeW).2.2 1 1 skW2 "codex" (by decide) (by decide),
   install_loop_cross_product.2 (fun s => s.name) [skW1, skW2] optsW []
     installW [skW1, skW2] ["opencode", "codex"] (by decide) (by decide)
     (by decide) (by decide) (by decide)⟩

/-! ## C7 and C10: hard failures and agent-name validation -/

theorem selectAgents_invalid (opts : CliOptions) (installed : List String)
    (a : String) (hmem : a ∈ opts.agentOpt)
    (hinv : validAgents.contains a = false) :
    selectAgents opts installed = .exitFail := by
  have hnem : opts.agentOpt.isEmpty = false := by
    cases h : opts.agentOpt with
    | nil => rw [h] at hmem; simp at hmem
    | cons x xs => rfl
  have hfil : (opts.agentOpt.filter
      (fun x => !(validAgents.contains x))).isEmpty = false := by
    have hm : a ∈ opts.agentOpt.filter (fun x => !(validAgents.contains x)) :=
      List.mem_filter.mpr ⟨hmem, by rw [hinv]; rfl⟩
    cases h : opts.agentOpt.filter (fun x => !(validAgents.contains x)) with
    | nil => rw [h] at hm; simp at hm
    | cons x xs => rfl
  simp [selectAgents, hnem, hfil]
  exact ⟨a, hmem, by simpa using hinv⟩

/-- C7: the orchestrator exits with code 1, attempting no installation,
when discovery returned an empty catalog, and likewise when any name in
the explicit agent list is not a recognized agent name. -/
theorem cli_hard_failures :
    (∀ (displayName : Skill → String) (opts : CliOptions)
        (installed : List String)
        (install : Skill → String → Bool → InstallOutcome),
      runMain displayName [] opts installed install = .exited 1 []) ∧
    (∀ (displayName : Skill → String) (skills : List Skill)
        (opts : CliOptions) (installed : List String)
        (install : Skill → String → Bool → InstallOutcome)
        (selected : List Skill) (a : String),
      skills.isEmpty = false → opts.listMode = false →
      selectSkills displayName skills opts = .ok selected →
      a ∈ opts.agentOpt → validAgents.contains a = false →
      runMain displayName skills opts installed install = .exited 1 []) := by
  constructor
  · intro displayName opts installed install
    simp [runMain]
  · intro displayName skills opts installed install selected a
      hne hlist hsel hmem hinv
    simp [runMain, hne, hlist, hsel,
      selectAgents_invalid opts installed a hmem hinv]

def optsBadAgent : CliOptions :=
  { globalOpt := some false, agentOpt := ["amp"], yes := true,
    skillOpt := [], listMode := false }

theorem cli_hard_failures_witness :
    runMain (fun s => s.name) [] optsW [] installW = .exited 1 [] ∧
    runMain (fun s => s.name) [skW1] optsBadAgent [] installW =
      .exited 1 [] :=
  ⟨cli_hard_failures.1 (fun s => s.name) optsW [] installW,
   cli_hard_failures.2 (fun s => s.name) [skW1] optsBadAgent [] installW
     [skW1] "amp" (by decide) (by decide) (by decide) (by decide) (by decide)⟩

/-- C10: the explicit agent validation accepts exactly the five names
opencode, claude-code, codex, cursor and antigravity; the four remaining
AgentType members amp, kilo, roo and goose are declared in the type
system yet rejected; any agent list containing a non-accepted name makes
agent selection a hard failure; and with no detected agents under the
yes option the selected default is the same five-agent list. -/
theorem explicit_agent_validation :
    (∀ s : String, validAgents.contains s = true ↔
      s = "opencode" ∨ s = "claude-code" ∨ s = "codex" ∨ s = "cursor" ∨
        s = "antigravity") ∧
    (∀ a ∈ (["amp", "kilo", "roo", "goose"] : List String),
      a ∈ agentTypeNames ∧ validAgents.contains a = false) ∧
    (∀ (opts : CliOptions) (installed : List String) (a : String),
      a ∈ opts.agentOpt → validAgents.contains a = false →
      selectAgents opts installed = .exitFail) ∧
    (∀ opts : CliOptions, opts.agentOpt = [] → opts.yes = true →
      selectAgents opts [] = .ok validAgents) := by
  refine ⟨?_, by decide, selectAgents_invalid, ?_⟩
  · intro s
    simp [validAgents]
  · intro opts h1 h2
    simp [selectAgents, h1, h2, validAgents]

def optsNoAgent : CliOptions :=
  { globalOpt := some false, agentOpt := [], yes := true,
    skillOpt := [], listMode := false }

theorem explicit_agent_validation_witness :
    ("amp" ∈ agentTypeNames ∧ validAgents.contains "amp" = false) ∧
    selectAgents optsBadAgent ["opencode"] = .exitFail ∧
    selectAgents optsNoAgent [] = .ok validAgents :=
  ⟨explicit_agent_validation.2.1 "amp" (by decide),
   explicit_agent_validation.2.2.1 optsBadAgent ["opencode"] "amp"
     (by decide) (by decide),
   explicit_agent_validation.2.2.2 optsNoAgent (by decide) (by decide)⟩

/-! ## C8: loadFavourites is total over arbitrary store states -/

/-- C8: loadFavourites returns the default document on a read failure, on
a parse failure and on a parsed document whose version field is not
truthy or whose favourites field is not an array; consequently
getFavourites always yields an array and never raises, for every store
state and every behaviour of the JSON parser. -/
theorem loadFavourites_total :
    (∀ jsonParse : String → Option JsValue,
      loadFavourites jsonParse .failure = getDefaultData) ∧
    (∀ (jsonParse : String → Option JsValue) (text : String),
      jsonParse text = none →
      loadFavourites jsonParse (.content text) = getDefaultData) ∧
    (∀ (jsonParse : String → Option JsValue) (text : String) (data : JsValue),
      jsonParse text = some data →
      (jsTruthy (jsGet data "version") = false ∨
        jsIsArray (jsGet data "favourites") = false) →
      loadFavourites jsonParse (.content text) = getDefaultData) ∧
    (∀ (jsonParse : String → Option JsValue) (st : ReadResult),
      ∃ elems, getFavourites jsonParse st = some (.arr elems)) := by
  refine ⟨fun _ => rfl, ?_, ?_, ?_⟩
  · intro jp text h
    simp [loadFavourites, h]
  · intro jp text data h hbad
    simp only [loadFavourites, h]
    rcases hbad with hb | hb <;> rw [hb] <;> simp
  · intro jp st
    cases st with
    | failure => exact ⟨[], rfl⟩
    | content text =>
      cases hp : jp text with
      | none =>
        refine ⟨[], ?_⟩
        simp only [getFavourites, loadFavourites, hp]
        rfl
      | some data =>
        simp only [getFavourites, loadFavourites, hp]
        by_cases hcond : (!(jsTruthy (jsGet data "version"))
            || !(jsIsArray (jsGet data "favourites"))) = true
        · rw [if_pos hcond]
          exact ⟨[], rfl⟩
        · rw [if_neg hcond]
          have ha : jsIsArray (jsGet data "favourites") = true := by
            have hfalse : (!(jsTruthy (jsGet data "version"))
                || !(jsIsArray (jsGet data "favourites"))) = false := by
              cases h : (!(jsTruthy (jsGet data "version"))
                  || !(jsIsArray (jsGet data "favourites")))
              · rfl
              · exact absurd h hcond
            have := (Bool.or_eq_false_iff.mp hfalse).2
            simpa using this
          cases hg : jsGet data "favourites" with
          | none => exact absurd ha (by simp [jsIsArray, hg])
          | some v =>
            cases v with
            | arr l => exact ⟨l, rfl⟩
            | null => exact absurd ha (by simp [jsIsArray, hg])
            | bool b => exact absurd ha (by simp [jsIsArray, hg])
            | num n => exact absurd ha (by simp [jsIsArray, hg])
            | str s => exact absurd ha (by simp [jsIsArray, hg])
            | obj fields => exact absurd ha (by simp [jsIsArray, hg])

def jpNone : String → Option JsValue := fun _ => none

/-- A parsed document with a falsy version field. -/
def jsBadDoc : JsValue := .obj [("version", .num 0), ("favourites", .arr [])]

def jpBad : String → Option JsValue := fun _ => some jsBadDoc

theorem loadFavourites_total_witness :
    loadFavourites jpNone (.content "x") = getDefaultData ∧
    loadFavourites jpBad (.content "x") = getDefaultData :=
  ⟨loadFavourites_total.2.1 jpNone "x" rfl,
   loadFavourites_total.2.2.1 jpBad "x" jsBadDoc rfl (Or.inl (by decide))⟩

/-! ## C9: removeFavourite -/

theorem findIdx_first (p : Favourite → Bool) :
    ∀ (l₁ : List Favourite) (f : Favourite) (l₂ : List Favourite),
      (∀ g ∈ l₁, p g = false) → p f = true →
      List.findIdx? p (l₁ ++ f :: l₂) = some l₁.length := by
  intro l₁
  induction l₁ with
  | nil => intro f l₂ _ hf; simp [List.findIdx?_cons, hf]
  | cons g gs ih =>
    intro f l₂ hall hf
    have hg : p g = false := hall g (List.mem_cons_self _ _)
    rw [List.cons_append, List.findIdx?_cons, hg]
    simp only [Bool.false_eq_true, if_false, List.findIdx?_succ]
    rw [ih f l₂ (fun x hx => hall x (List.mem_cons_of_mem _ hx)) hf]
    rfl

theorem eraseIdx_at_append (f : Favourite) :
    ∀ (l₁ l₂ : List Favourite), (l₁ ++ f :: l₂).eraseIdx l₁.length = l₁ ++ l₂ := by
  intro l₁
  induction l₁ with
  | nil => intro l₂; rfl
  | cons g gs ih => intro l₂; simp [List.eraseIdx_cons_succ, ih]

/-- C9: removeFavourite returns false, stores nothing and leaves the
loaded data unchanged when no stored favourite has the given id; when at
least one does, it removes exactly the first such entry, preserves every
other entry and their order, persists the result and returns true. -/
theorem removeFavourite_spec (id : String) (data : FavouritesData) :
    ((∀ f ∈ data.favourites, f.id ≠ id) →
      removeFavourite id data =
        { returned := false, stored := data, wrote := false }) ∧
    (∀ (l₁ : List Favourite) (f : Favourite) (l₂ : List Favourite),
      data.favourites = l₁ ++ f :: l₂ → f.id = id →
      (∀ g ∈ l₁, g.id ≠ id) →
      removeFavourite id data =
        { returned := true,
          stored := { version := data.version, favourites := l₁ ++ l₂ },
          wrote := true }) := by
  constructor
  · intro hall
    have hnone : data.favourites.findIdx? (fun f => f.id == id) = none := by
      refine List.findIdx?_eq_none_iff.mpr (fun x hx => ?_)
      have hne := hall x hx
      cases h : x.id == id
      · rfl
      · exact absurd (by simpa using h) hne
    simp [removeFavourite, hnone]
  · intro l₁ f l₂ hsplit hf hall
    have hfind : data.favourites.findIdx? (fun g => g.id == id) =
        some l₁.length := by
      rw [hsplit]
      refine findIdx_first _ l₁ f l₂ (fun g hg => ?_) (by simp [hf])
      have hne := hall g hg
      cases h : g.id == id
      · rfl
      · exact absurd (by simpa using h) hne
    have herase : data.favourites.eraseIdx l₁.length = l₁ ++ l₂ := by
      rw [hsplit]; exact eraseIdx_at_append f l₁ l₂
    simp [removeFavourite, hfind, herase]

def favA : Favourite :=
  { id := "aa", repo := "r1", description := "d1", addedAt := "t1" }

def favB : Favourite :=
  { id := "bb", repo := "r2", description := "d2", addedAt := "t2" }

/-- A second favourite sharing the id of favB, to exhibit that only the
first match is removed. -/
def favB2 : Favourite :=
  { id := "bb", repo := "r3", description := "d3", addedAt := "t3" }

def dataW : FavouritesData := { version := 1, favourites := [favA, favB, favB2] }

theorem removeFavourite_spec_witness :
    removeFavourite "zz" dataW =
      { returned := false, stored := dataW, wrote := false } ∧
    removeFavourite "bb" dataW =
      { returned := true,
        stored := { version := dataW.version, favourites := [favA] ++ [favB2] },
        wrote := true } :=
  ⟨(removeFavourite_spec "zz" dataW).1 (by decide),
   (removeFavourite_spec "bb" dataW).2 [favA] favB [favB2]
     (by decide) (by decide) (by decide)⟩

end AddSkill
